import Mathlib

/-!
Shallow embedding of the HTML-cleaning core of the LLMindMap repository
(src/cleaner/clean_BS_MS.py, clean_faculty.py, clean_phds.py, clean_pd.py,
clean_rg.py), together with theorems settling the frozen claims about it.

Python strings are modelled as Lean `String`; the handful of Python string
operations the cleaners use (split, replace, strip, substring test, lower,
startswith) are implemented character-exactly over `String.data`.
HTML parse trees are modelled by the nested inductive `HNode`; the
BeautifulSoup operations used by the source (find_all, find, get_text,
stripped_strings, attribute lookup, direct children, string-node search)
are implemented over it following BeautifulSoup's documented semantics.
-/

/-! ## Python string primitives -/

/-- Auxiliary for Python `str.split()` (no argument): accumulate the current
word (reversed) while scanning. -/
def pyWordsAux : List Char → List Char → List (List Char)
  | [], acc => if acc.isEmpty then [] else [acc.reverse]
  | c :: t, acc =>
    if c.isWhitespace then
      if acc.isEmpty then pyWordsAux t [] else acc.reverse :: pyWordsAux t []
    else pyWordsAux t (c :: acc)

/-- Python `s.split()` : split on runs of whitespace, no empty pieces. -/
def pySplitWs (s : String) : List String := (pyWordsAux s.data []).map String.mk

/-- Python `" ".join(s.split())` : whitespace normalization. -/
def normJoin (s : String) : String := String.intercalate " " (pySplitWs s)

/-- Occurrence of `pat` as a contiguous substring, Python `pat in s` on char lists. -/
def listSub (pat : List Char) : List Char → Bool
  | [] => pat.isEmpty
  | c :: t => pat.isPrefixOf (c :: t) || listSub pat t

/-- Python `pat in s`. -/
def pyContains (s pat : String) : Bool := listSub pat.data s.data

/-- Auxiliary for Python `s.replace(pat, rep)` : fuel-indexed scan replacing
leftmost non-overlapping occurrences. -/
def chReplaceAux : Nat → List Char → List Char → List Char → List Char
  | _, [], _, _ => []
  | 0, s, _, _ => s
  | Nat.succ n, c :: t, pat, rep =>
    if pat ≠ [] ∧ pat.isPrefixOf (c :: t) then rep ++ chReplaceAux n ((c :: t).drop pat.length) pat rep
    else c :: chReplaceAux n t pat rep

/-- Python `s.replace(pat, rep)` (all the cleaners use non-empty patterns). -/
def pyReplace (s pat rep : String) : String :=
  String.mk (chReplaceAux s.data.length s.data pat.data rep.data)

/-- Auxiliary for Python `s.split(sep)` with a non-empty separator. -/
def chSplitOnAux : Nat → List Char → List Char → List (List Char)
  | _, _, [] => [[]]
  | 0, _, s => [s]
  | Nat.succ n, sep, c :: t =>
    if sep ≠ [] ∧ sep.isPrefixOf (c :: t) then [] :: chSplitOnAux n sep ((c :: t).drop sep.length)
    else match chSplitOnAux n sep t with
      | [] => [[c]]
      | h :: r => (c :: h) :: r

/-- Python `s.split(sep)` for a non-empty separator. -/
def pySplitOn (s sep : String) : List String :=
  (chSplitOnAux s.data.length sep.data s.data).map String.mk

/-- Python `s.strip()`. -/
def pyStrip (s : String) : String :=
  String.mk (((s.data.dropWhile Char.isWhitespace).reverse.dropWhile Char.isWhitespace).reverse)

/-- Python `s.lower()`. -/
def pyLower (s : String) : String := String.mk (s.data.map Char.toLower)

/-- Python `s.startswith(pre)`. -/
def pyStartsWith (s pre : String) : Bool := pre.data.isPrefixOf s.data

/-- Text after the first occurrence of `pat` (Python `s.split(pat, 1)[1]`),
`none` when `pat` does not occur. -/
def afterFirst (pat : List Char) : List Char → Option (List Char)
  | [] => if pat.isEmpty then some [] else none
  | c :: t =>
    if pat ≠ [] ∧ pat.isPrefixOf (c :: t) then some ((c :: t).drop pat.length)
    else afterFirst pat t

/-- Python `re.split` on a single-character class: split at every character
satisfying `p`, keeping empty pieces. -/
def splitCharsAux (p : Char → Bool) : List Char → List Char → List (List Char)
  | [], acc => [acc.reverse]
  | c :: t, acc => if p c then acc.reverse :: splitCharsAux p t [] else splitCharsAux p t (c :: acc)

/-- Python `re.split(r"[;,]", s)`. -/
def pySplitSemiComma (s : String) : List String :=
  (splitCharsAux (fun c => c = ';' || c = ',') s.data []).map String.mk

/-! ## HTML node model and BeautifulSoup operations -/

/-- An HTML parse-tree node: a text node, or an element with a tag name, an
attribute list and children.  Comments, scripts and styles are assumed
already removed (the cleaners strip them before extraction). -/
inductive HNode where
  | text (s : String) : HNode
  | elem (tag : String) (attrs : List (String × String)) (children : List HNode) : HNode
deriving Repr

mutual

/-- All descendant text-node contents in document order (BeautifulSoup
`strings` of an element; a bare text node yields itself). -/
def HNode.texts : HNode → List String
  | .text s => [s]
  | .elem _ _ cs => HNode.textsList cs

/-- `HNode.texts` over a list of siblings. -/
def HNode.textsList : List HNode → List String
  | [] => []
  | c :: cs => c.texts ++ HNode.textsList cs

end

/-- BeautifulSoup `stripped_strings`: each descendant string stripped,
skipping those that become empty. -/
def strippedStrings (n : HNode) : List String :=
  (n.texts.map pyStrip).filter (fun s => s != "")

/-- BeautifulSoup `get_text(" ", strip=True)`. -/
def getTextSepStrip (n : HNode) : String := String.intercalate " " (strippedStrings n)

/-- BeautifulSoup `get_text(strip=True)` (empty separator). -/
def getTextStrip0 (n : HNode) : String := String.join (strippedStrings n)

/-- BeautifulSoup `get_text()` (no separator, no stripping). -/
def getTextRaw (n : HNode) : String := String.join n.texts

mutual

/-- Matching descendants-or-self of a node, in pre-order (document order);
only elements can match.  The predicate receives tag, attributes, children. -/
def hitsNode (p : String → List (String × String) → List HNode → Bool) : HNode → List HNode
  | .text _ => []
  | .elem t a cs => (if p t a cs then [.elem t a cs] else []) ++ hitsList p cs

/-- `hitsNode` over a list of siblings. -/
def hitsList (p : String → List (String × String) → List HNode → Bool) :
    List HNode → List HNode
  | [] => []
  | c :: cs => hitsNode p c ++ hitsList p cs

end

/-- BeautifulSoup `find_all` over the descendants of `n` (excluding `n`
itself), with an arbitrary element predicate. -/
def findAllBy (p : String → List (String × String) → List HNode → Bool) :
    HNode → List HNode
  | .text _ => []
  | .elem _ _ cs => hitsList p cs

/-- Attribute lookup on an attribute list (HTML attributes are unique). -/
def attrOf (attrs : List (String × String)) (key : String) : Option String :=
  attrs.lookup key

/-- BeautifulSoup `tag.get(key, dflt)` / `tag[key]` for string-valued attributes. -/
def getAttrD (n : HNode) (key dflt : String) : String :=
  match n with
  | .text _ => dflt
  | .elem _ a _ => (attrOf a key).getD dflt

/-- BeautifulSoup `tag.get(key)` (default `None`). -/
def attrVal? (n : HNode) (key : String) : Option String :=
  match n with
  | .text _ => none
  | .elem _ a _ => attrOf a key

/-- Does the element's whitespace-split `class` attribute contain `cls`
(BeautifulSoup `class_=cls` matching)? -/
def attrsHaveClass (a : List (String × String)) (cls : String) : Bool :=
  (pySplitWs ((attrOf a "class").getD "")).contains cls

/-- `soup.find_all(tag)`. -/
def findAllTag (tg : String) (n : HNode) : List HNode :=
  findAllBy (fun t _ _ => t == tg) n

/-- `soup.find_all([t1, t2, ...])`. -/
def findAllTags (tags : List String) (n : HNode) : List HNode :=
  findAllBy (fun t _ _ => tags.contains t) n

/-- `soup.find_all(tag, class_=cls)`. -/
def findAllTagClass (tg cls : String) (n : HNode) : List HNode :=
  findAllBy (fun t a _ => t == tg && attrsHaveClass a cls) n

/-- `soup.find(tag)` : first matching descendant. -/
def findTag (tg : String) (n : HNode) : Option HNode := (findAllTag tg n).head?

/-- `soup.find(tag, class_=cls)`. -/
def findTagClass (tg cls : String) (n : HNode) : Option HNode :=
  (findAllTagClass tg cls n).head?

/-- Direct children of a node (BeautifulSoup `.children` / `recursive=False`). -/
def directChildren : HNode → List HNode
  | .text _ => []
  | .elem _ _ cs => cs

mutual

/-- All descendant text nodes of an element paired with their immediate
parent, in document order (BeautifulSoup `find_all(string=...)` plus
`find_parent()`). -/
def textsWithParent : HNode → List (String × HNode)
  | .text _ => []
  | .elem t a cs => textsWithParentList (.elem t a cs) cs

/-- `textsWithParent` over the children of `par`. -/
def textsWithParentList (par : HNode) : List HNode → List (String × HNode)
  | [] => []
  | c :: cs =>
    (match c with
     | .text s => [(s, par)]
     | .elem t a gs => textsWithParent (.elem t a gs)) ++ textsWithParentList par cs

end

/-! ## clean_BS_MS.py : cell extraction, table repair, escaped tables -/

/-- `extract_clean_cell` (clean_BS_MS.py): plain text plus one
`"visible_text | href"` entry per descendant hyperlink, joined by `" ; "`. -/
def extract_clean_cell (cell : HNode) : String :=
  let text := normJoin (String.intercalate " " (strippedStrings cell))
  let parts := (if text != "" then [text] else []) ++
    (findAllTag "a" cell).filterMap (fun a =>
      let linkText := String.intercalate " " (strippedStrings a)
      let linkUrl := pyStrip (getAttrD a "href" "")
      if linkText != "" || linkUrl != "" then some (linkText ++ " | " ++ linkUrl) else none)
  pyStrip (String.intercalate " ; " parts)

/-- Fuel-indexed chunking, mirroring `for i in range(0, len(cells), 5)` with
slices `cells[i:i+5]`; the fuel `len(cells)` always suffices. -/
def chunksAux : Nat → List String → List (List String)
  | _, [] => []
  | 0, l => [l]
  | Nat.succ n, l => l.take 5 :: chunksAux n (l.drop 5)

/-- The successive 5-cell slices of a row's cell list. -/
def chunks5 (l : List String) : List (List String) := chunksAux l.length l

/-- The lines `table_to_text` emits for one `<tr>` row: collect `th`/`td`
cells, skip the row when there are none, split rows of more than 5 cells
into successive 5-cell sub-rows, join each line's cells by `" | "`. -/
def rowToLines (row : HNode) : List String :=
  let cells := findAllTags ["th", "td"] row
  if cells.isEmpty then []
  else
    let cleaned := cells.map extract_clean_cell
    if cleaned.length > 5 then
      (chunks5 cleaned).filterMap (fun sub =>
        if sub.isEmpty then none else some (String.intercalate " | " sub))
    else [String.intercalate " | " cleaned]

/-- `table_to_text` (clean_BS_MS.py): the row lines of all `<tr>` rows,
joined by newlines. -/
def table_to_text (t : HNode) : String :=
  String.intercalate "\n" ((findAllTag "tr" t).flatMap rowToLines)

/-- `extract_real_tables` (clean_BS_MS.py): the non-empty renderings of all
`<table>` elements, in document order. -/
def extract_real_tables (doc : HNode) : List String :=
  (findAllTag "table" doc).foldl
    (fun results t =>
      let txt := table_to_text t
      if txt != "" then results ++ [txt] else results) []

/-- The inner loop of `extract_escaped_tables` (clean_BS_MS.py) run on one
decoded sub-document `inner`: append the non-empty rendering of each
`<table>` inside `inner` to the running `found` list. -/
def escapedAccumulate (found : List String) (inner : HNode) : List String :=
  (findAllTag "table" inner).foldl
    (fun fnd t =>
      let txt := table_to_text t
      if txt != "" then fnd ++ [txt] else fnd) found

/-- The order-preserving deduplication at the end of
`extract_escaped_tables` (clean_BS_MS.py). -/
def dedupStrings (found : List String) : List String :=
  found.foldl (fun finalList f => if finalList.contains f then finalList else finalList ++ [f]) []

/-! ## clean_faculty.py -/

/-- `norm` (clean_faculty.py / clean_phds.py / clean_pd.py): whitespace
normalization, empty for falsy input. -/
def norm (s : String) : String := if s = "" then "" else pyStrip (normJoin s)

/-- A faculty record as built by `parse_faculty_block`. -/
structure FacEntry where
  name : String
  role : String
  emails : List String
  phone : String
  research : List String
  homepage : String
deriving DecidableEq, Repr

/-- Consume exactly `n` digits (`\d{n}` of PHONE_REGEX). -/
def takeDigits : Nat → List Char → Option (List Char × List Char)
  | 0, s => some ([], s)
  | Nat.succ _, [] => none
  | Nat.succ n, c :: t =>
    if c.isDigit then (takeDigits n t).map (fun dr => (c :: dr.1, dr.2)) else none

/-- Consume an optional separator (`[\s-]?` of PHONE_REGEX; deterministic
because no digit is a separator). -/
def optSep : List Char → (List Char × List Char)
  | [] => ([], [])
  | c :: t => if c.isWhitespace || c = '-' then ([c], t) else ([], c :: t)

/-- Match PHONE_REGEX `\+91[\s-]?\d{3}[\s-]?\d{3}[\s-]?\d{4}` at the start of
the input, returning the matched characters. -/
def matchPhoneAt : List Char → Option (List Char)
  | '+' :: '9' :: '1' :: rest =>
    let s1 := optSep rest
    match takeDigits 3 s1.2 with
    | none => none
    | some d1 =>
      let s2 := optSep d1.2
      match takeDigits 3 s2.2 with
      | none => none
      | some d2 =>
        let s3 := optSep d2.2
        match takeDigits 4 s3.2 with
        | none => none
        | some d3 =>
          some ('+' :: '9' :: '1' :: (s1.1 ++ d1.1 ++ s2.1 ++ d2.1 ++ s3.1 ++ d3.1))
  | _ => none

/-- `PHONE_REGEX.search`: leftmost match. -/
def phoneSearch : List Char → Option String
  | [] => none
  | c :: t =>
    match matchPhoneAt (c :: t) with
    | some m => some (String.mk m)
    | none => phoneSearch t

/-- `block.get_text(" ", strip=True)` as used by `parse_faculty_block`. -/
def facText (block : HNode) : String := getTextSepStrip block

/-- NAME, primary strategy: first heading among h6, h5, h4, h3 (in that
priority order), its raw text normalized. -/
def facNamePrimary (block : HNode) : String :=
  match (["h6", "h5", "h4", "h3"].filterMap (fun tg => findTag tg block)).head? with
  | some t => norm (getTextRaw t)
  | none => ""

/-- NAME, fallback strategy: first span/a whose lowercased stripped text
contains an honorific token and has at most 6 words. -/
def facNameFallback (block : HNode) : String :=
  match (findAllTags ["span", "a"] block).find? (fun c =>
      let t := getTextStrip0 c
      (["prof", "dr", "mr", "ms"].any (fun x => pyContains (pyLower t) x))
        && (pySplitWs t).length ≤ 6) with
  | some c => getTextStrip0 c
  | none => ""

/-- NAME as computed by `parse_faculty_block`. -/
def facName (block : HNode) : String :=
  let n := facNamePrimary block
  if n != "" then n else facNameFallback block

/-- HOMEPAGE as computed by `parse_faculty_block`: the loop keeps
overwriting, so the last `http`-prefixed href survives. -/
def facHomepage (block : HNode) : String :=
  (findAllTag "a" block).foldl (fun hp a =>
    let href := getAttrD a "href" ""
    if pyStartsWith href "http" then href else hp) ""

/-- EMAIL as computed by `parse_faculty_block`: colon-to-space, whitespace
split, keep tokens containing `@iiserb.ac.in` or `[at]iiserb.ac.in`,
de-obfuscate via the replace chain. -/
def facEmails (block : HNode) : List String :=
  (pySplitWs (pyReplace (facText block) ":" " ")).filterMap (fun p =>
    if pyContains p "@iiserb.ac.in" || pyContains p "[at]iiserb.ac.in" then
      some (pyReplace (pyReplace (pyReplace (pyReplace (pyReplace
        p "[at]" "@") "[At]" "@") "[AT]" "@") "(at)" "@") "at]" "@")
    else none)

/-- PHONE as computed by `parse_faculty_block`. -/
def facPhone (block : HNode) : String :=
  match phoneSearch (facText block).data with
  | some m => m
  | none => ""

/-- ROLE as computed by `parse_faculty_block`: first label from the fixed
list occurring case-insensitively in the block text. -/
def facRole (block : HNode) : String :=
  match (["Assistant Professor", "Associate Professor", "Professor", "Dept. Head"].find?
      (fun rk => pyContains (pyLower (facText block)) (pyLower rk))) with
  | some rk => rk
  | none => ""

/-- RESEARCH AREAS as computed by `parse_faculty_block`. -/
def facResearch (block : HNode) : List String :=
  let text := facText block
  if pyContains text "Research" then
    match afterFirst "Research".data text.data with
    | some rest =>
      let r := pyReplace (String.mk rest) ":" ""
      (pySplitSemiComma r).filterMap (fun x =>
        let nx := norm x
        if nx != "" then some nx else none)
    | none => []
  else []

/-- `parse_faculty_block` (clean_faculty.py). -/
def parse_faculty_block (block : HNode) : Option FacEntry :=
  let text := facText block
  if text = "" then none
  else
    let name := facName block
    let emails := facEmails block
    if name == "" && emails.isEmpty then none
    else some {
      name := name
      role := facRole block
      emails := emails
      phone := facPhone block
      research := facResearch block
      homepage := facHomepage block }

/-- The undeduplicated record list of `extract_faculty_entries`: the
article pass, then the `tyJCtd` pass, then the Email-text backup pass. -/
def rawFaculty (doc : HNode) : List FacEntry :=
  ((findAllTag "article" doc).filterMap parse_faculty_block)
    ++ ((findAllTagClass "div" "tyJCtd" doc).filterMap parse_faculty_block)
    ++ ((textsWithParent doc).filterMap (fun sp =>
          if pyContains sp.1 "Email" then parse_faculty_block sp.2 else none))

/-- The deduplication loop of `extract_faculty_entries`: keep a record when
its name is non-empty and unseen. -/
def facDedup : List FacEntry → List FacEntry → List String → List FacEntry
  | [], finalList, _ => finalList
  | f :: rest, finalList, seen =>
    if f.name != "" && !(seen.contains f.name) then
      facDedup rest (finalList ++ [f]) (f.name :: seen)
    else facDedup rest finalList seen

/-- `extract_faculty_entries` (clean_faculty.py). -/
def extract_faculty_entries (doc : HNode) : List FacEntry :=
  facDedup (rawFaculty doc) [] []

/-! ## clean_phds.py -/

/-- A PhD-student record as built by `parse_student_block`. -/
structure StuEntry where
  name : String
  year_of_joining : String
  supervisor : String
  email : String
  homepage : String
  image_url : String
deriving DecidableEq, Repr

/-- The name field of `parse_student_block`: text of the first anchor. -/
def studentName (block : HNode) : String :=
  match findTag "a" block with
  | some a => norm (getTextSepStrip a)
  | none => ""

/-- The paragraph loop of `parse_student_block`: successively overwrite
(year_of_joining, supervisor, email) over all `<p>` descendants. -/
def studentDetails (block : HNode) : String × String × String :=
  (findAllTag "p" block).foldl (fun acc p =>
    let txt := norm (getTextSepStrip p)
    let y := if pyContains txt "Year of Joining" then
        let parts := pySplitOn txt ":"
        if parts.length > 1 then norm (parts.getD 1 "") else acc.1
      else acc.1
    let s := if pyContains txt "Supervisor" then
        norm (pyStrip (pyReplace (pyReplace txt "Supervisor" "") ":" ""))
      else acc.2.1
    let e := if pyContains txt "Email" then
        match findTag "a" p with
        | some mail =>
          let href := pyStrip (getAttrD mail "href" "")
          if pyStartsWith href "mailto:" then
            pyReplace (pyReplace href "mailto:" "") "[at]" "@"
          else
            let inner := pyReplace (getTextSepStrip mail) "[at]" "@"
            if pyContains inner "@" then inner else acc.2.2
        | none => acc.2.2
      else acc.2.2
    (y, s, e)) ("", "", "")

/-- `parse_student_block` (clean_phds.py). -/
def parse_student_block (block : HNode) : Option StuEntry :=
  let name := studentName block
  let homepage := match findTag "a" block with
    | some a =>
      let href := getAttrD a "href" ""
      if pyStartsWith href "http" then href else ""
    | none => ""
  let image_url := match findTag "img" block with
    | some img =>
      (match attrVal? img "src" with
       | some s => if s != "" then s else ""
       | none => "")
    | none => ""
  let d := studentDetails block
  if name = "" then none
  else some { name := name, year_of_joining := d.1, supervisor := d.2.1,
              email := d.2.2, homepage := homepage, image_url := image_url }

/-- The record list built by `clean_file` (clean_phds.py): every accepted
`tyJCtd` block, in document order, with no deduplication. -/
def phdRecords (doc : HNode) : List StuEntry :=
  (findAllTagClass "div" "tyJCtd" doc).filterMap parse_student_block

/-! ## clean_pd.py -/

/-- A postdoc record as built by `parse_postdoc_entry`. -/
structure PdEntry where
  name : String
  year_of_joining : String
  supervisor : String
  email : String
  homepage : String
  image_url : String
deriving DecidableEq, Repr

/-- The name field of `parse_postdoc_entry`: first `<h6 class="heading">`. -/
def pdName (article : HNode) : String :=
  match findTagClass "h6" "heading" article with
  | some t => norm (getTextSepStrip t)
  | none => ""

/-- Year-of-joining extraction of `parse_postdoc_entry`:
`text.split("Year of Joining:")[1].split("Supervisor")[0]`, normalized.
The `[1]` indexing raises when the trigger "Year of Joining" occurs without
the colon-bearing label; that is the `.error` case. -/
def pdYear (text : String) : Except Unit String :=
  if pyContains text "Year of Joining" then
    match pySplitOn text "Year of Joining:" with
    | _ :: seg :: _ => .ok (norm ((pySplitOn seg "Supervisor").headD ""))
    | _ => .error ()
  else .ok ""

/-- Supervisor extraction of `parse_postdoc_entry`:
`text.split("Supervisor Name:")[1].split("Email")[0]`, normalized. -/
def pdSupervisor (text : String) : Except Unit String :=
  if pyContains text "Supervisor Name" then
    match pySplitOn text "Supervisor Name:" with
    | _ :: seg :: _ => .ok (norm ((pySplitOn seg "Email").headD ""))
    | _ => .error ()
  else .ok ""

/-- Email extraction of `parse_postdoc_entry`:
`text.split("Email:")[1].split()[0]` with the `[At]`/`[at]` replacements;
errors when the indexing would raise. -/
def pdEmail (text : String) : Except Unit String :=
  if pyContains text "Email" then
    match pySplitOn text "Email:" with
    | _ :: seg :: _ =>
      (match pySplitWs seg with
       | e :: _ => .ok (pyReplace (pyReplace e "[At]" "@") "[at]" "@")
       | [] => .error ())
    | _ => .error ()
  else .ok ""

/-- `parse_postdoc_entry` (clean_pd.py); `.error` models an uncaught
IndexError inside the detail section (the first raise propagates). -/
def parse_postdoc_entry (article : HNode) : Except Unit (Option PdEntry) :=
  let image_url := match findTag "img" article with
    | some img =>
      (match attrVal? img "src" with
       | some s => if s != "" then s else ""
       | none => "")
    | none => ""
  let name := pdName article
  match findTag "p" article with
  | none =>
    if name = "" then .ok none
    else .ok (some { name := name, year_of_joining := "", supervisor := "",
                     email := "", homepage := "", image_url := image_url })
  | some p =>
    let text := getTextSepStrip p
    match pdYear text with
    | .error u => .error u
    | .ok y =>
      match pdSupervisor text with
      | .error u => .error u
      | .ok s =>
        match pdEmail text with
        | .error u => .error u
        | .ok e =>
          let homepage := match findTag "a" p with
            | some link =>
              (match attrVal? link "href" with
               | some h => if h != "" then h else ""
               | none => "")
            | none => ""
          if name = "" then .ok none
          else .ok (some { name := name, year_of_joining := y, supervisor := s,
                           email := e, homepage := homepage, image_url := image_url })

/-- The record list built by `clean_file` (clean_pd.py), over documents on
which no entry raises: every accepted `article.one_third`, no dedup. -/
def pdRecords (doc : HNode) : Except Unit (List PdEntry) :=
  (findAllTagClass "article" "one_third" doc).foldlM (fun acc art => do
    let e ← parse_postdoc_entry art
    match e with
    | some r => pure (acc ++ [r])
    | none => pure acc) []

/-! ## clean_rg.py -/

/-- A research-group record as built by `parse_research_container`. -/
structure RgEntry where
  title : String
  description : String
  topics : List String
  homepage : String
  image_url : String
deriving DecidableEq, Repr

/-- `norm` (clean_rg.py): whitespace normalization without the final strip. -/
def rgNorm (s : String) : String := if s = "" then "" else normJoin s

/-- `extract_description` (clean_rg.py): direct-child paragraphs' texts,
then direct free text nodes, joined with single spaces. -/
def extract_description (text_block : HNode) : String :=
  let pLines := ((directChildren text_block).filter (fun c =>
      match c with
      | .elem t _ _ => t == "p"
      | _ => false)).filterMap (fun p =>
      let txt := getTextSepStrip p
      if txt != "" then some txt else none)
  let rawLines := (directChildren text_block).filterMap (fun c =>
      match c with
      | .text s =>
        let t := rgNorm s
        if t != "" then some t else none
      | _ => none)
  rgNorm (String.intercalate " " (pLines ++ rawLines))

/-- The halves of a research container: all descendant `div.one_half`. -/
def rgHalves (container : HNode) : List HNode :=
  findAllTagClass "div" "one_half" container

/-- The classification test of `parse_research_container`: the half's first
`<img>` exists and carries a truthy `src`. -/
def halfHasImgSrc (h : HNode) : Bool :=
  match findTag "img" h with
  | some img =>
    (match attrVal? img "src" with
     | some s => s != ""
     | none => false)
  | none => false

/-- The image/text classification loop of `parse_research_container`:
each half with an img-with-src overwrites the image block, every other
half overwrites the text block. -/
def rgClassify (halves : List HNode) : Option HNode × Option HNode :=
  halves.foldl (fun acc h =>
    if halfHasImgSrc h then (some h, acc.2) else (acc.1, some h)) (none, none)

/-- The fallback image-block loop of `parse_research_container`: when no
half had an img-with-src, the last half containing any `<img>`. -/
def rgImgFallback (imgBlock : Option HNode) (halves : List HNode) : Option HNode :=
  if imgBlock.isNone && !halves.isEmpty then
    halves.foldl (fun ib h => if (findTag "img" h).isSome then some h else ib) imgBlock
  else imgBlock

/-- The IMAGE section of `parse_research_container`. -/
def rgImageUrl (imgBlock : Option HNode) : String :=
  match imgBlock with
  | some b =>
    (match findTag "img" b with
     | some img =>
       (match attrVal? img "src" with
        | some s => if s != "" then s else ""
        | none => "")
     | none => "")
  | none => ""

/-- The TITLE section of `parse_research_container`: first `<h3>` of the
text block. -/
def rgTitle (tb : HNode) : String :=
  match findTag "h3" tb with
  | some h3 => rgNorm (getTextSepStrip h3)
  | none => ""

/-- The TOPICS section of `parse_research_container`: items of the first
`<ul>` of the text block. -/
def rgTopics (tb : HNode) : List String :=
  match findTag "ul" tb with
  | some ul =>
    (findAllTag "li" ul).filterMap (fun li =>
      let t := rgNorm (getTextSepStrip li)
      if t != "" then some t else none)
  | none => []

/-- The HOMEPAGE section of `parse_research_container`: the first anchor of
the text block, if it carries a truthy href. -/
def rgHomepage (tb : HNode) : String :=
  match findTag "a" tb with
  | some link =>
    (match attrVal? link "href" with
     | some h => if h != "" then h else ""
     | none => "")
  | none => ""

/-- `parse_research_container` (clean_rg.py). -/
def parse_research_container (container : HNode) : Option RgEntry :=
  let halves := rgHalves container
  if halves.isEmpty then none
  else
    let cls := rgClassify halves
    let imgBlock := rgImgFallback cls.1 halves
    let image_url := rgImageUrl imgBlock
    match cls.2 with
    | none => none
    | some tb =>
      let title := rgTitle tb
      if title = "" then none
      else some { title := title, description := extract_description tb,
                  topics := rgTopics tb, homepage := rgHomepage tb,
                  image_url := image_url }

/-- The title `parse_research_container` extracts along its actual code
path: empty when there are no halves or no text block. -/
def rgExtractedTitle (container : HNode) : String :=
  let halves := rgHalves container
  if halves.isEmpty then ""
  else
    match (rgClassify halves).2 with
    | none => ""
    | some tb => rgTitle tb

/-- The record list built by `clean_file` (clean_rg.py): every accepted
`div.research-container`, in document order, no dedup. -/
def rgRecords (doc : HNode) : List RgEntry :=
  (findAllTagClass "div" "research-container" doc).filterMap parse_research_container

/-! ## Spec-side definitions and concrete inputs used by the theorems -/

/-- Text between the first occurrence of the label `lab` and the next
occurrence of `nxt` after it, or up to end-of-string when `nxt` does not
follow; empty when `lab` does not occur.  This follows the specification's
wording for token-delimited extraction. -/
def specBetween (text lab nxt : String) : String :=
  match afterFirst lab.data text.data with
  | some rest => (pySplitOn (String.mk rest) nxt).headD ""
  | none => ""

/-- A table cell holding one text node. -/
def mkTd (s : String) : HNode := .elem "td" [] [.text s]

/-- A 12-cell merged row, the spec's own example shape (5 + 5 + 2). -/
def exRow12 : HNode :=
  .elem "tr" [] [mkTd "c1", mkTd "c2", mkTd "c3", mkTd "c4", mkTd "c5", mkTd "c6",
                 mkTd "c7", mkTd "c8", mkTd "c9", mkTd "c10", mkTd "c11", mkTd "c12"]

/-- The HTML-entity-encoded form of the two-cell table, as it would sit in a
content-carrying attribute value. -/
def escVal : String :=
  "&lt;table&gt;&lt;tr&gt;&lt;td&gt;A&lt;/td&gt;&lt;td&gt;B&lt;/td&gt;&lt;/tr&gt;&lt;/table&gt;"

/-- The parse tree of `<table><tr><td>A</td><td>B</td></tr></table>`,
i.e. what `BeautifulSoup(html.unescape(escVal), "html.parser")` contains. -/
def escTableAB : HNode :=
  .elem "table" [] [.elem "tr" [] [.elem "td" [] [.text "A"], .elem "td" [] [.text "B"]]]

/-- The decoded sub-document wrapping `escTableAB`. -/
def escDocAB : HNode := .elem "[document]" [] [escTableAB]

/-- An outer document carrying the identical table as a genuine inline table. -/
def outerInlineAB : HNode :=
  .elem "[document]" [] [.elem "html" [] [.elem "body" [] [escTableAB]]]

/-- A faculty candidate block whose text is an obfuscated institutional
email and nothing else: no heading, no honorific span. -/
def facNoNameBlock : HNode := .elem "div" [] [.text "x[at]iiserb.ac.in"]

/-- A faculty block containing the `[At]` obfuscation variant (and a name so
that a record is produced). -/
def facAtVariantBlock : HNode :=
  .elem "div" [] [.elem "h6" [] [.text "Prof A"], .text " x[At]iiserb.ac.in"]

/-- A faculty block containing the lowercase `[at]` obfuscation variant. -/
def facAtBlock : HNode :=
  .elem "div" [] [.elem "h6" [] [.text "Prof A"], .text " x[at]iiserb.ac.in"]

/-- A faculty block with two absolute hyperlinks. -/
def facTwoLinks : HNode :=
  .elem "div" [] [.elem "h6" [] [.text "Prof A"],
    .elem "a" [("href", "http://one")] [.text "x"],
    .elem "a" [("href", "http://two")] [.text "y"]]

/-- A PhD-student block named Alice B with supervisor C. -/
def stuBlockA : HNode :=
  .elem "div" [("class", "tyJCtd")] [.elem "a" [("href", "http://home")] [.text "Alice B"],
    .elem "p" [] [.text "Supervisor : Dr. C"]]

/-- A PhD-student block with the same name as `stuBlockA` but a different
supervisor. -/
def stuBlockB : HNode :=
  .elem "div" [("class", "tyJCtd")] [.elem "a" [("href", "http://home")] [.text "Alice B"],
    .elem "p" [] [.text "Supervisor : Dr. D"]]

/-- A PhD document containing two accepted blocks with the same name. -/
def phdDupDoc : HNode := .elem "[document]" [] [stuBlockA, stuBlockB]

/-- A faculty document with one article entry, for witnesses. -/
def facDoc1 : HNode :=
  .elem "[document]" [] [.elem "article" [] [.elem "h6" [] [.text "Prof A"]]]

/-- A research-group half (a `div.one_half`). -/
def mkHalf (cs : List HNode) : HNode := .elem "div" [("class", "one_half")] cs

/-- The image half used in the orientation tests. -/
def rgImgHalf : HNode := mkHalf [.elem "img" [("src", "a.png")] []]

/-- The text half used in the orientation tests. -/
def rgTextHalf : HNode :=
  mkHalf [.elem "h3" [] [.text "T"], .elem "p" [] [.text "D"],
    .elem "ul" [] [.elem "li" [] [.text "t1"]], .elem "a" [("href", "/rel")] [.text "link"]]

/-- A research container with the given halves. -/
def mkRc (hs : List HNode) : HNode := .elem "div" [("class", "research-container")] hs

/-- A research container with a single image-free half carrying a title. -/
def rgNoImgContainer : HNode :=
  mkRc [mkHalf [.elem "h3" [] [.text "Group T"], .elem "p" [] [.text "desc"]]]

/-- A research container whose every half holds an image with a src. -/
def rgAllImgContainer : HNode :=
  mkRc [mkHalf [.elem "img" [("src", "a.png")] [], .elem "h3" [] [.text "T1"]],
        mkHalf [.elem "img" [("src", "b.png")] [], .elem "h3" [] [.text "T2"]]]

/-- A node with no halves at all. -/
def rgEmptyContainer : HNode := .elem "div" [("class", "research-container")] []

/-- A postdoc detail text with both labels occurring once. -/
def pdText9 : String :=
  "Year of Joining: 2020 Supervisor Name: Prof S Email: p@iiserb.ac.in"

/-- A postdoc article whose detail paragraph is `pdText9`. -/
def pdArticle9 : HNode :=
  .elem "article" [("class", "one_third")] [
    .elem "h6" [("class", "heading")] [.text "Dr. P Q"],
    .elem "p" [] [.text "Year of Joining: 2020 Supervisor Name: Prof S Email: p@iiserb.ac.in"]]

/-- A postdoc detail text in which the "Year of Joining:" label occurs
twice before the "Supervisor" label. -/
def pdDupLabelText : String :=
  "Year of Joining: 2020 Year of Joining: 2021 Supervisor Name: S"

/-- A postdoc article whose detail paragraph is `pdDupLabelText`. -/
def pdDupArticle : HNode :=
  .elem "article" [("class", "one_third")] [
    .elem "h6" [("class", "heading")] [.text "Dr. P Q"],
    .elem "p" [] [.text "Year of Joining: 2020 Year of Joining: 2021 Supervisor Name: S"]]

/-- First-occurrence-per-name selection, following the specification's
wording for deduplication: keep a record when its name is non-empty and not
yet seen, in order. -/
def firstOccByName : List FacEntry → List String → List FacEntry
  | [], _ => []
  | f :: rest, seen =>
    if f.name != "" && !(seen.contains f.name) then
      f :: firstOccByName rest (f.name :: seen)
    else firstOccByName rest seen

/-! ## Helper lemmas: chunking -/

theorem chunksAux_flatten (fuel : Nat) :
    ∀ l : List String, l.length ≤ fuel → (chunksAux fuel l).flatten = l := by
  induction fuel with
  | zero =>
    intro l h
    have : l = [] := List.length_eq_zero.mp (Nat.le_zero.mp h)
    subst this
    rfl
  | succ n ih =>
    intro l h
    cases l with
    | nil => rfl
    | cons a t =>
      have hd : ((a :: t).drop 5).length ≤ n := by
        simp only [List.length_drop, List.length_cons] at h ⊢
        omega
      show ((a :: t).take 5 :: chunksAux n ((a :: t).drop 5)).flatten = a :: t
      rw [List.flatten_cons, ih ((a :: t).drop 5) hd]
      exact List.take_append_drop 5 (a :: t)

theorem chunksAux_length (fuel : Nat) :
    ∀ l : List String, l.length ≤ fuel →
      (chunksAux fuel l).length = (l.length + 4) / 5 := by
  induction fuel with
  | zero =>
    intro l h
    have : l = [] := List.length_eq_zero.mp (Nat.le_zero.mp h)
    subst this
    rfl
  | succ n ih =>
    intro l h
    cases l with
    | nil => rfl
    | cons a t =>
      have hd : ((a :: t).drop 5).length ≤ n := by
        simp only [List.length_drop, List.length_cons] at h ⊢
        omega
      show ((a :: t).take 5 :: chunksAux n ((a :: t).drop 5)).length = _
      rw [List.length_cons, ih ((a :: t).drop 5) hd]
      simp only [List.length_drop, List.length_cons]
      omega

theorem chunksAux_mem (fuel : Nat) :
    ∀ l : List String, l.length ≤ fuel →
      ∀ ch ∈ chunksAux fuel l, 0 < ch.length ∧ ch.length ≤ 5 := by
  induction fuel with
  | zero =>
    intro l h
    have : l = [] := List.length_eq_zero.mp (Nat.le_zero.mp h)
    subst this
    intro ch hch
    exact absurd hch (by simp [chunksAux])
  | succ n ih =>
    intro l h
    cases l with
    | nil => intro ch hch; exact absurd hch (by simp [chunksAux])
    | cons a t =>
      intro ch hch
      have hd : ((a :: t).drop 5).length ≤ n := by
        simp only [List.length_drop, List.length_cons] at h ⊢
        omega
      have hch : ch = (a :: t).take 5 ∨ ch ∈ chunksAux n ((a :: t).drop 5) := by
        simpa [chunksAux] using hch
      rcases hch with rfl | hch
      · constructor
        · simp
        · simp
      · exact ih ((a :: t).drop 5) hd ch hch

theorem chunks5_flatten (l : List String) : (chunks5 l).flatten = l :=
  chunksAux_flatten l.length l le_rfl

theorem chunks5_length (l : List String) : (chunks5 l).length = (l.length + 4) / 5 :=
  chunksAux_length l.length l le_rfl

theorem chunks5_mem (l : List String) :
    ∀ ch ∈ chunks5 l, 0 < ch.length ∧ ch.length ≤ 5 :=
  chunksAux_mem l.length l le_rfl

theorem filterMap_intercalate_of_ne_nil :
    ∀ l : List (List String), (∀ ch ∈ l, ch ≠ []) →
      l.filterMap (fun sub => if sub.isEmpty then none else some (String.intercalate " | " sub))
        = l.map (String.intercalate " | ") := by
  intro l
  induction l with
  | nil => intro _; rfl
  | cons ch l ih =>
    intro h
    have h1 : ch ≠ [] := h ch (by simp)
    have h2 : ch.isEmpty = false := by simpa [List.isEmpty_iff] using h1
    simp only [List.filterMap_cons, h2, Bool.false_eq_true, if_false, List.map_cons]
    rw [ih (fun c hc => h c (by simp [hc]))]

/-- C1: for every table row, writing k for the number of cell nodes it
yields — by hypothesis all cell texts are non-empty, so k is also the
number of non-zero cell texts (first conjunct) — the rendered output is:
no line when k = 0; one " | "-joined line when 0 < k ≤ 5; and, when k > 5,
exactly ceil(k/5) lines, namely the consecutive 5-cell chunks of the cell
list in original order (last chunk possibly shorter), whose concatenation
is the full cell list, so no cell is dropped or duplicated. -/
theorem C1_row_split (row : HNode)
    (hne : ∀ c ∈ findAllTags ["th", "td"] row, extract_clean_cell c ≠ "") :
    (((findAllTags ["th", "td"] row).map extract_clean_cell).filter (fun s => s != "")).length
      = (findAllTags ["th", "td"] row).length ∧
    ((findAllTags ["th", "td"] row).length = 0 → rowToLines row = []) ∧
    (0 < (findAllTags ["th", "td"] row).length → (findAllTags ["th", "td"] row).length ≤ 5 →
      rowToLines row =
        [String.intercalate " | " ((findAllTags ["th", "td"] row).map extract_clean_cell)]) ∧
    (5 < (findAllTags ["th", "td"] row).length →
      rowToLines row = (chunks5 ((findAllTags ["th", "td"] row).map extract_clean_cell)).map
          (String.intercalate " | ") ∧
      (rowToLines row).length = ((findAllTags ["th", "td"] row).length + 4) / 5 ∧
      (chunks5 ((findAllTags ["th", "td"] row).map extract_clean_cell)).flatten
        = (findAllTags ["th", "td"] row).map extract_clean_cell ∧
      ∀ ch ∈ chunks5 ((findAllTags ["th", "td"] row).map extract_clean_cell),
        0 < ch.length ∧ ch.length ≤ 5) := by
  have hfil : (((findAllTags ["th", "td"] row).map extract_clean_cell).filter
      (fun s => s != "")).length = (findAllTags ["th", "td"] row).length := by
    rw [List.filter_eq_self.mpr, List.length_map]
    intro a ha
    rcases List.mem_map.mp ha with ⟨c, hc, rfl⟩
    simpa using hne c hc
  refine ⟨hfil, ?_, ?_, ?_⟩
  · intro hk
    have h0 : findAllTags ["th", "td"] row = [] := List.length_eq_zero.mp hk
    simp [rowToLines, h0]
  · intro hk1 hk5
    have h0 : findAllTags ["th", "td"] row ≠ [] := List.ne_nil_of_length_pos hk1
    have h1 : (findAllTags ["th", "td"] row).isEmpty = false := by
      simpa [List.isEmpty_iff] using h0
    have h2 : ¬ (((findAllTags ["th", "td"] row).map extract_clean_cell).length > 5) := by
      rw [List.length_map]
      omega
    simp only [rowToLines, h1, Bool.false_eq_true, if_false, if_neg h2]
  · intro hk
    have h0 : findAllTags ["th", "td"] row ≠ [] := List.ne_nil_of_length_pos (by omega)
    have h1 : (findAllTags ["th", "td"] row).isEmpty = false := by
      simpa [List.isEmpty_iff] using h0
    have h2 : ((findAllTags ["th", "td"] row).map extract_clean_cell).length > 5 := by
      rw [List.length_map]
      omega
    have hmem := chunks5_mem ((findAllTags ["th", "td"] row).map extract_clean_cell)
    have hnemem : ∀ ch ∈ chunks5 ((findAllTags ["th", "td"] row).map extract_clean_cell),
        ch ≠ [] := fun ch hch => List.ne_nil_of_length_pos (hmem ch hch).1
    have hrow : rowToLines row =
        (chunks5 ((findAllTags ["th", "td"] row).map extract_clean_cell)).map
          (String.intercalate " | ") := by
      simp only [rowToLines, h1, Bool.false_eq_true, if_false, if_pos h2]
      exact filterMap_intercalate_of_ne_nil _ hnemem
    refine ⟨hrow, ?_, chunks5_flatten _, hmem⟩
    rw [hrow, List.length_map, chunks5_length, List.length_map]

/-- Witness for C1: the spec's 12-cell example row renders as 3 lines of
5, 5 and 2 cells. -/
theorem C1_row_split_witness :
    rowToLines exRow12 =
      ["c1 | c2 | c3 | c4 | c5", "c6 | c7 | c8 | c9 | c10", "c11 | c12"] ∧
    (rowToLines exRow12).length = 3 := by
  have h := C1_row_split exRow12 (by decide)
  have h4 := h.2.2.2 (by decide)
  exact ⟨h4.1.trans (by decide), h4.2.1.trans (by decide)⟩

/-- Folding the table-rendering step from any accumulator appends the
fold-from-nil result. -/
theorem tableFold_append (ts : List HNode) :
    ∀ acc : List String,
      ts.foldl (fun fnd t =>
        let txt := table_to_text t
        if txt != "" then fnd ++ [txt] else fnd) acc
      = acc ++ ts.foldl (fun fnd t =>
        let txt := table_to_text t
        if txt != "" then fnd ++ [txt] else fnd) [] := by
  induction ts with
  | nil => intro acc; simp
  | cons t ts ih =>
    intro acc
    simp only [List.foldl_cons]
    cases h : (table_to_text t != "") with
    | false =>
      simp only [h, Bool.false_eq_true, if_false]
      exact ih acc
    | true =>
      simp only [h, if_true]
      rw [ih (acc ++ [table_to_text t]), ih ([] ++ [table_to_text t])]
      simp [List.append_assoc]

/-- C2: the per-candidate loop of `extract_escaped_tables`, run on a decoded
sub-document, contributes exactly `extract_real_tables` of that
sub-document (the same rendering logic, not duplicated); the encoded
attribute value is recognized as a candidate; and the decoded
`<table><tr><td>A</td><td>B</td></tr></table>` renders to the same single
line "A | B" as a genuine inline table with identical cell content. -/
theorem C2_escaped_equals_real :
    (∀ (found : List String) (inner : HNode),
        escapedAccumulate found inner = found ++ extract_real_tables inner) ∧
    ((pyContains escVal "<table" || pyContains escVal "&lt;table") = true) ∧
    extract_real_tables escDocAB = ["A | B"] ∧
    escapedAccumulate [] escDocAB = ["A | B"] ∧
    extract_real_tables outerInlineAB = ["A | B"] := by
  refine ⟨?_, by decide, by decide, by decide, by decide⟩
  intro found inner
  unfold escapedAccumulate extract_real_tables
  exact tableFold_append (findAllTag "table" inner) found

/-- C3 counterexample: `parse_faculty_block`, on a block carrying only an
obfuscated institutional email, returns a record whose identity field
(name) is empty instead of rejecting the block, leaving the caller to
filter it. -/
theorem C3_counterexample :
    parse_faculty_block facNoNameBlock =
      some { name := "", role := "", emails := ["x@iiserb.ac.in"], phone := "",
             research := [], homepage := "" } := by decide

/-- C3 amended: the PhD, postdoc and research-group parsers return a record
exactly when the extracted identity field is non-empty; the faculty parser
instead returns a record exactly when its block text is non-empty and the
name or the email list is non-empty, so it can return a record with an
empty name for the caller to filter. -/
theorem C3_identity_policy :
    (∀ b : HNode, (parse_student_block b).isSome ↔ studentName b ≠ "") ∧
    (∀ (a : HNode) (r : Option PdEntry), parse_postdoc_entry a = .ok r →
        (r.isSome ↔ pdName a ≠ "")) ∧
    (∀ c : HNode, (parse_research_container c).isSome ↔ rgExtractedTitle c ≠ "") ∧
    (∀ b : HNode, (parse_faculty_block b).isSome ↔
        (facText b ≠ "" ∧ (facName b ≠ "" ∨ facEmails b ≠ []))) := by
  refine ⟨?_, ?_, ?_, ?_⟩
  · intro b
    by_cases h : studentName b = "" <;> simp [parse_student_block, h]
  · intro a r hr
    unfold parse_postdoc_entry at hr
    cases hp : findTag "p" a with
    | none =>
      simp only [hp] at hr
      by_cases hn : pdName a = ""
      · rw [if_pos hn] at hr
        cases hr
        simp [hn]
      · rw [if_neg hn] at hr
        cases hr
        simp [hn]
    | some p =>
      simp only [hp] at hr
      cases hy : pdYear (getTextSepStrip p) with
      | error u => simp only [hy] at hr; cases hr
      | ok y =>
        simp only [hy] at hr
        cases hs : pdSupervisor (getTextSepStrip p) with
        | error u => simp only [hs] at hr; cases hr
        | ok s =>
          simp only [hs] at hr
          cases he : pdEmail (getTextSepStrip p) with
          | error u => simp only [he] at hr; cases hr
          | ok e =>
            simp only [he] at hr
            by_cases hn : pdName a = ""
            · rw [if_pos hn] at hr
              cases hr
              simp [hn]
            · rw [if_neg hn] at hr
              cases hr
              simp [hn]
  · intro c
    unfold parse_research_container rgExtractedTitle
    cases h1 : (rgHalves c).isEmpty with
    | true => simp [h1]
    | false =>
      simp only [h1, Bool.false_eq_true, if_false]
      cases h2 : (rgClassify (rgHalves c)).2 with
      | none => simp
      | some tb =>
        by_cases h3 : rgTitle tb = ""
        · simp [h3]
        · simp [h3]
  · intro b
    by_cases h1 : facText b = ""
    · simp [parse_faculty_block, h1]
    · by_cases h2 : facName b = ""
      · by_cases h3 : facEmails b = []
        · simp [parse_faculty_block, h1, h2, h3]
        · simp [parse_faculty_block, h1, h2, h3]
      · simp [parse_faculty_block, h1, h2]

/-- Witness for C3 amended: a concrete postdoc article with a full detail
paragraph; its parse succeeds with a record, and the theorem yields that
the extracted name is non-empty. -/
theorem C3_identity_policy_witness : pdName pdArticle9 ≠ "" := by
  have hok : parse_postdoc_entry pdArticle9 =
      .ok (some { name := "Dr. P Q", year_of_joining := "2020", supervisor := "Prof S",
                  email := "p@iiserb.ac.in", homepage := "", image_url := "" }) := by
    rfl
  exact (C3_identity_policy.2.1 pdArticle9 _ hok).mp (by decide)

/-- The dedup loop equals appending the first-occurrence selection. -/
theorem facDedup_eq (l : List FacEntry) :
    ∀ (fl : List FacEntry) (seen : List String),
      facDedup l fl seen = fl ++ firstOccByName l seen := by
  induction l with
  | nil => intro fl seen; simp [facDedup, firstOccByName]
  | cons f rest ih =>
    intro fl seen
    simp only [facDedup, firstOccByName]
    cases h : (f.name != "" && !(seen.contains f.name)) with
    | true =>
      simp only [h, if_true]
      rw [ih (fl ++ [f]) (f.name :: seen)]
      simp
    | false =>
      simp only [h, Bool.false_eq_true, if_false]
      exact ih fl seen

/-- First-occurrence selection is a sublist of its input. -/
theorem firstOcc_sublist (l : List FacEntry) :
    ∀ seen, List.Sublist (firstOccByName l seen) l := by
  induction l with
  | nil => intro seen; simp [firstOccByName]
  | cons f rest ih =>
    intro seen
    simp only [firstOccByName]
    cases h : (f.name != "" && !(seen.contains f.name)) with
    | true =>
      simp only [h, if_true]
      exact (ih (f.name :: seen)).cons₂ f
    | false =>
      simp only [h, Bool.false_eq_true, if_false]
      exact (ih seen).cons f

/-- First-occurrence selection yields pairwise-distinct, non-empty names,
none of which were already seen. -/
theorem firstOcc_names (l : List FacEntry) :
    ∀ seen, ((firstOccByName l seen).map FacEntry.name).Nodup
      ∧ ∀ e ∈ firstOccByName l seen, e.name ≠ "" ∧ seen.contains e.name = false := by
  induction l with
  | nil =>
    intro seen
    refine ⟨by simp [firstOccByName], ?_⟩
    intro e he
    simp [firstOccByName] at he
  | cons f rest ih =>
    intro seen
    simp only [firstOccByName]
    cases h : (f.name != "" && !(seen.contains f.name)) with
    | false =>
      simp only [h, Bool.false_eq_true, if_false]
      exact ih seen
    | true =>
      simp only [h, if_true]
      obtain ⟨hb1, hb2⟩ := Bool.and_eq_true_iff.mp h
      have hfname : f.name ≠ "" := by simpa using hb1
      have hfseen : seen.contains f.name = false := by simpa using hb2
      obtain ⟨ihn, ihm⟩ := ih (f.name :: seen)
      constructor
      · simp only [List.map_cons, List.nodup_cons]
        refine ⟨?_, ihn⟩
        intro hmem
        rcases List.mem_map.mp hmem with ⟨e, he, hEq⟩
        have hc := (ihm e he).2
        rw [hEq] at hc
        simp [List.contains_cons] at hc
      · intro e he
        rcases List.mem_cons.mp he with rfl | he
        · exact ⟨hfname, hfseen⟩
        · obtain ⟨h1, h2⟩ := ihm e he
          refine ⟨h1, ?_⟩
          simp only [List.contains_cons, Bool.or_eq_false_iff] at h2
          exact h2.2

/-- Every selected record is the first record in the input bearing its name. -/
theorem firstOcc_find (l : List FacEntry) :
    ∀ seen, ∀ e ∈ firstOccByName l seen,
      l.find? (fun f => f.name == e.name) = some e := by
  induction l with
  | nil => intro seen e he; simp [firstOccByName] at he
  | cons f rest ih =>
    intro seen e he
    simp only [firstOccByName] at he
    cases h : (f.name != "" && !(seen.contains f.name)) with
    | true =>
      rw [if_pos h] at he
      rcases List.mem_cons.mp he with rfl | he'
      · rw [List.find?_cons_of_pos _ (by simp)]
      · have hprops := (firstOcc_names rest (f.name :: seen)).2 e he'
        have hne : e.name ≠ f.name := by
          intro hEq
          have hc := hprops.2
          rw [hEq] at hc
          simp [List.contains_cons] at hc
        rw [List.find?_cons_of_neg _ (by simp [Ne.symm hne])]
        exact ih (f.name :: seen) e he'
    | false =>
      rw [if_neg (ne_true_of_eq_false h)] at he
      have hprops := (firstOcc_names rest seen).2 e he
      have hne : f.name ≠ e.name := by
        intro hEq
        rcases Bool.and_eq_false_iff.mp h with h1 | h2
        · have : f.name = "" := by simpa using h1
          rw [hEq] at this
          exact hprops.1 this
        · have hcontains : seen.contains f.name = true := by
            cases hc : seen.contains f.name with
            | true => rfl
            | false => rw [hc] at h2; simp at h2
          rw [hEq] at hcontains
          rw [hprops.2] at hcontains
          cases hcontains
      rw [List.find?_cons_of_neg _ (by simp [hne])]
      exact ih seen e he

/-- C4 counterexample: the PhD pipeline performs no deduplication — a
document with two accepted blocks sharing one name yields two records, so
identity values are not unique in the output. -/
theorem C4_counterexample :
    (phdRecords phdDupDoc).map StuEntry.name = ["Alice B", "Alice B"] ∧
    ¬ ((phdRecords phdDupDoc).map StuEntry.name).Nodup ∧
    (phdRecords phdDupDoc).length = 2 :=
  ⟨by decide, by decide, by decide⟩

/-- C4 amended: only the faculty pipeline deduplicates: its output is a
sublist of the raw pass results, its names are pairwise distinct and
non-empty, and each output record is the first raw record bearing its name;
the PhD (and postdoc, research-group) pipelines keep every accepted record,
duplicates included. -/
theorem C4_faculty_dedup (doc : HNode) :
    List.Sublist (extract_faculty_entries doc) (rawFaculty doc) ∧
    ((extract_faculty_entries doc).map FacEntry.name).Nodup ∧
    (∀ e ∈ extract_faculty_entries doc, e.name ≠ "") ∧
    (∀ e ∈ extract_faculty_entries doc,
      (rawFaculty doc).find? (fun f => f.name == e.name) = some e) := by
  have hd : extract_faculty_entries doc = firstOccByName (rawFaculty doc) [] := by
    unfold extract_faculty_entries
    rw [facDedup_eq]
    simp
  refine ⟨?_, ?_, ?_, ?_⟩
  · rw [hd]; exact firstOcc_sublist (rawFaculty doc) []
  · rw [hd]; exact (firstOcc_names (rawFaculty doc) []).1
  · rw [hd]; intro e he; exact ((firstOcc_names (rawFaculty doc) []).2 e he).1
  · rw [hd]; intro e he; exact firstOcc_find (rawFaculty doc) [] e he

/-- Witness for C4 amended: a one-entry faculty document. -/
theorem C4_faculty_dedup_witness :
    ((extract_faculty_entries facDoc1).map FacEntry.name).Nodup ∧
    (rawFaculty facDoc1).find?
        (fun f => f.name == (FacEntry.mk "Prof A" "" [] "" [] "").name)
      = some (FacEntry.mk "Prof A" "" [] "" [] "") :=
  ⟨(C4_faculty_dedup facDoc1).2.1,
   (C4_faculty_dedup facDoc1).2.2.2 (FacEntry.mk "Prof A" "" [] "" [] "") (by decide)⟩

/-- Folding "keep the last match" equals the last element of the filtered
list (or the initial value when none matches). -/
theorem foldl_keepLast (p : String → Bool) (l : List String) :
    ∀ d : String, l.foldl (fun hp h => if p h then h else hp) d
      = ((l.filter p).getLast?).getD d := by
  induction l with
  | nil => intro d; simp
  | cons x l ih =>
    intro d
    simp only [List.foldl_cons, List.filter_cons]
    cases hx : p x with
    | false =>
      simp only [hx, Bool.false_eq_true, if_false]
      exact ih d
    | true =>
      simp only [hx, if_true]
      rw [ih x]
      cases hfl : l.filter p with
      | nil => simp
      | cons y ys =>
        rw [List.getLast?_cons_cons]
        cases hlast : (y :: ys).getLast? with
        | none => exact absurd hlast (by simp)
        | some z => rfl

/-- C5 counterexample: the faculty homepage is the last absolute hyperlink,
not the first — a block with absolute links http://one then http://two
yields homepage http://two. -/
theorem C5_counterexample :
    ((findAllTag "a" facTwoLinks).map (fun a => getAttrD a "href" "")).filter
        (fun h => pyStartsWith h "http") = ["http://one", "http://two"] ∧
    parse_faculty_block facTwoLinks =
      some { name := "Prof A", role := "", emails := [], phone := "",
             research := [], homepage := "http://two" } :=
  ⟨by decide, by decide⟩

/-- C5 amended: the faculty homepage equals the LAST hyperlink target that
starts with "http" (absent when none does); the research-group homepage
equals the first anchor of the text half when that anchor carries a
non-empty href, of any form, absolute or not. -/
theorem C5_homepage_rule :
    (∀ (b : HNode) (r : FacEntry), parse_faculty_block b = some r →
        r.homepage = ((((findAllTag "a" b).map (fun a => getAttrD a "href" "")).filter
            (fun h => pyStartsWith h "http")).getLast?).getD "") ∧
    (∀ (c : HNode) (e : RgEntry), parse_research_container c = some e →
        ∃ tb, (rgClassify (rgHalves c)).2 = some tb ∧ e.homepage = rgHomepage tb) := by
  constructor
  · intro b r hr
    have hfold : facHomepage b =
        ((((findAllTag "a" b).map (fun a => getAttrD a "href" "")).filter
          (fun h => pyStartsWith h "http")).getLast?).getD "" := by
      unfold facHomepage
      rw [← foldl_keepLast (fun h => pyStartsWith h "http")
            ((findAllTag "a" b).map (fun a => getAttrD a "href" "")) ""]
      rw [List.foldl_map]
    simp only [parse_faculty_block] at hr
    split at hr
    · simp at hr
    · split at hr
      · simp at hr
      · injection hr with h
        subst h
        exact hfold
  · intro c e he
    simp only [parse_research_container] at he
    split at he
    · simp at he
    · split at he
      · simp at he
      next tb heq =>
        split at he
        · simp at he
        · injection he with h
          subst h
          exact ⟨tb, heq, rfl⟩

/-- Witness for C5 amended: the two-link block, via the theorem. -/
theorem C5_homepage_rule_witness :
    ({ name := "Prof A", role := "", emails := [], phone := "",
       research := [], homepage := "http://two" } : FacEntry).homepage
      = ((((findAllTag "a" facTwoLinks).map (fun a => getAttrD a "href" "")).filter
          (fun h => pyStartsWith h "http")).getLast?).getD "" :=
  C5_homepage_rule.1 facTwoLinks _ (by decide)

/-- C6 counterexample: a block whose text carries the token
x[At]iiserb.ac.in (the [At] variant) produces a record with an EMPTY email
list — the [At] and (at) variants are not recognized, because only the
substrings "@iiserb.ac.in" and lowercase "[at]iiserb.ac.in" trigger
collection. -/
theorem C6_counterexample :
    ((pySplitWs (facText facAtVariantBlock)).contains "x[At]iiserb.ac.in" = true) ∧
    parse_faculty_block facAtVariantBlock =
      some { name := "Prof A", role := "", emails := [], phone := "",
             research := [], homepage := "" } :=
  ⟨by decide, by decide⟩

/-- C6 amended: only tokens containing "@iiserb.ac.in" or lowercase
"[at]iiserb.ac.in" are collected; in particular a block whose
colon-stripped whitespace-split text contains the token
"x[at]iiserb.ac.in" yields a record whose email list contains
"x@iiserb.ac.in" (the replace chain does rewrite [at], [At], [AT], (at),
at] once a token is collected). -/
theorem C6_at_token_email (b : HNode) (r : FacEntry)
    (hp : parse_faculty_block b = some r)
    (ht : "x[at]iiserb.ac.in" ∈ pySplitWs (pyReplace (facText b) ":" " ")) :
    "x@iiserb.ac.in" ∈ r.emails := by
  have hre : r.emails = facEmails b := by
    simp only [parse_faculty_block] at hp
    split at hp
    · simp at hp
    · split at hp
      · simp at hp
      · injection hp with h
        subst h
        rfl
  rw [hre]
  unfold facEmails
  exact List.mem_filterMap.mpr ⟨"x[at]iiserb.ac.in", ht, by decide⟩

/-- Witness for C6 amended: the lowercase-[at] block, via the theorem. -/
theorem C6_at_token_email_witness :
    "x@iiserb.ac.in" ∈ (FacEntry.mk "Prof A" "" ["x@iiserb.ac.in"] "" [] "").emails :=
  C6_at_token_email facAtBlock _ (by decide) (by decide)

/-- C7: for two research containers that are identical except that the
image-bearing half and the text half are swapped, parsing yields identical
records — title, description, topics, homepage, and image, so orientation
does not affect extracted content.  The halves are one_half divs with no
nested one_half; exactly one carries an img with a src. -/
theorem C7_orientation (ct : String) (ca a1 a2 : List (String × String))
    (cs1 cs2 : List HNode)
    (hc1 : attrsHaveClass a1 "one_half" = true)
    (hc2 : attrsHaveClass a2 "one_half" = true)
    (hn1 : (hitsList (fun t a _ => t == "div" && attrsHaveClass a "one_half") cs1).isEmpty = true)
    (hn2 : (hitsList (fun t a _ => t == "div" && attrsHaveClass a "one_half") cs2).isEmpty = true)
    (hi : halfHasImgSrc (.elem "div" a1 cs1) = true)
    (ht : halfHasImgSrc (.elem "div" a2 cs2) = false) :
    parse_research_container (.elem ct ca [.elem "div" a1 cs1, .elem "div" a2 cs2])
      = parse_research_container (.elem ct ca [.elem "div" a2 cs2, .elem "div" a1 cs1]) := by
  have hn1e : hitsList (fun t a _ => t == "div" && attrsHaveClass a "one_half") cs1 = [] :=
    List.isEmpty_iff.mp hn1
  have hn2e : hitsList (fun t a _ => t == "div" && attrsHaveClass a "one_half") cs2 = [] :=
    List.isEmpty_iff.mp hn2
  have hh1 : rgHalves (.elem ct ca [.elem "div" a1 cs1, .elem "div" a2 cs2])
      = [.elem "div" a1 cs1, .elem "div" a2 cs2] := by
    unfold rgHalves findAllTagClass findAllBy
    simp [hitsList, hitsNode, hc1, hc2, hn1e, hn2e]
  have hh2 : rgHalves (.elem ct ca [.elem "div" a2 cs2, .elem "div" a1 cs1])
      = [.elem "div" a2 cs2, .elem "div" a1 cs1] := by
    unfold rgHalves findAllTagClass findAllBy
    simp [hitsList, hitsNode, hc1, hc2, hn1e, hn2e]
  unfold parse_research_container
  rw [hh1, hh2]
  simp [rgClassify, rgImgFallback, hi, ht]

/-- Witness for C7: the concrete image-left and image-right containers
parse identically. -/
theorem C7_orientation_witness :
    parse_research_container (mkRc [rgImgHalf, rgTextHalf])
      = parse_research_container (mkRc [rgTextHalf, rgImgHalf]) :=
  C7_orientation "div" [("class", "research-container")]
    [("class", "one_half")] [("class", "one_half")]
    [.elem "img" [("src", "a.png")] []]
    [.elem "h3" [] [.text "T"], .elem "p" [] [.text "D"],
     .elem "ul" [] [.elem "li" [] [.text "t1"]], .elem "a" [("href", "/rel")] [.text "link"]]
    (by decide) (by decide) (by decide) (by decide) (by decide) (by decide)

/-- C8 counterexample: a container with a half, no image anywhere, and a
title yields a record (the image-free half becomes the text half), so "no
half contains an image" does NOT imply a null result. -/
theorem C8_counterexample :
    ((rgHalves rgNoImgContainer).all (fun h => (findTag "img" h).isNone) = true) ∧
    parse_research_container rgNoImgContainer =
      some { title := "Group T", description := "desc", topics := [],
             homepage := "", image_url := "" } :=
  ⟨by decide, by decide⟩

/-- C8 amended: a research container yields no record when it has no
one_half halves at all, or when no half is classified as the text half
(which, for nonempty halves, happens exactly when every half carries an
img with a truthy src); a container whose halves lack images entirely
still yields a record when a title is present. -/
theorem C8_no_text_half_null (c : HNode) :
    ((rgHalves c).isEmpty = true → parse_research_container c = none) ∧
    ((rgClassify (rgHalves c)).2 = none → parse_research_container c = none) := by
  constructor
  · intro h
    unfold parse_research_container
    simp [h]
  · intro h
    unfold parse_research_container
    by_cases he : (rgHalves c).isEmpty
    · simp [he]
    · simp [he, h]

/-- Witness for C8 amended: a container with no halves parses to none. -/
theorem C8_no_text_half_null_witness :
    parse_research_container rgEmptyContainer = none :=
  (C8_no_text_half_null rgEmptyContainer).1 (by decide)

/-- When every half passes the img-with-src test, the classification loop
never assigns a text block. -/
theorem rgClassify_all_img (l : List HNode) :
    ∀ acc : Option HNode × Option HNode, (∀ h ∈ l, halfHasImgSrc h = true) →
      (l.foldl (fun acc h =>
        if halfHasImgSrc h then (some h, acc.2) else (acc.1, some h)) acc).2 = acc.2 := by
  induction l with
  | nil => intro acc _; rfl
  | cons x l ih =>
    intro acc hall
    simp only [List.foldl_cons, hall x (by simp), if_true]
    exact ih _ (fun h hh => hall h (by simp [hh]))

/-- C10: a research container in which every half contains an img with a
src attribute parses to none, whatever titles or other content the halves
hold, because no half is ever classified as the text half. -/
theorem C10_all_image_halves (c : HNode)
    (hne : (rgHalves c).isEmpty = false)
    (hall : ∀ h ∈ rgHalves c, halfHasImgSrc h = true) :
    parse_research_container c = none := by
  have hcls : (rgClassify (rgHalves c)).2 = none := by
    unfold rgClassify
    exact rgClassify_all_img (rgHalves c) (none, none) hall
  unfold parse_research_container
  simp [hne, hcls]

/-- Witness for C10: the container whose two halves both carry images with
srcs (and titles) parses to none. -/
theorem C10_all_image_halves_witness :
    parse_research_container rgAllImgContainer = none :=
  C10_all_image_halves rgAllImgContainer (by decide) (by decide)

/-- The split auxiliary never returns the empty list. -/
theorem chSplitOnAux_ne_nil (fuel : Nat) (sep s : List Char) :
    chSplitOnAux fuel sep s ≠ [] := by
  match fuel, s with
  | _, [] => simp [chSplitOnAux]
  | 0, c :: t => simp [chSplitOnAux]
  | Nat.succ n, c :: t =>
    by_cases hp : sep ≠ [] ∧ sep.isPrefixOf (c :: t)
    · simp [chSplitOnAux, hp]
    · simp only [chSplitOnAux, if_neg hp]
      cases h : chSplitOnAux n sep t <;> simp

/-- A one-piece split means the separator does not occur and the piece is
the whole input. -/
theorem chSplitOnAux_single (sep : List Char) (hsep : sep ≠ []) :
    ∀ (fuel : Nat) (u : List Char), u.length ≤ fuel →
      ∀ x, chSplitOnAux fuel sep u = [x] → x = u ∧ listSub sep u = false := by
  have hie : sep.isEmpty = false := by simpa [List.isEmpty_iff] using hsep
  intro fuel
  induction fuel with
  | zero =>
    intro u hu x h
    have : u = [] := List.length_eq_zero.mp (Nat.le_zero.mp hu)
    subst this
    simp only [chSplitOnAux] at h
    have : x = [] := by simpa using h.symm
    subst this
    exact ⟨rfl, by simp [listSub, hie]⟩
  | succ n ih =>
    intro u hu x h
    cases u with
    | nil =>
      simp only [chSplitOnAux] at h
      have : x = [] := by simpa using h.symm
      subst this
      exact ⟨rfl, by simp [listSub, hie]⟩
    | cons c t =>
      by_cases hp : sep ≠ [] ∧ sep.isPrefixOf (c :: t)
      · simp only [chSplitOnAux, if_pos hp] at h
        have hrec : chSplitOnAux n sep ((c :: t).drop sep.length) = [] := by
          have := List.cons.inj h
          exact this.2.symm ▸ rfl
        exact absurd hrec (chSplitOnAux_ne_nil n sep ((c :: t).drop sep.length))
      · simp only [chSplitOnAux, if_neg hp] at h
        have hpre : sep.isPrefixOf (c :: t) = false := by
          cases hb : sep.isPrefixOf (c :: t) with
          | false => rfl
          | true => exact absurd ⟨hsep, hb⟩ hp
        cases hrec : chSplitOnAux n sep t with
        | nil => exact absurd hrec (chSplitOnAux_ne_nil n sep t)
        | cons h0 r =>
          rw [hrec] at h
          simp only [] at h
          have h1 := List.cons.inj h
          have hr : r = [] := h1.2.symm ▸ rfl
          subst hr
          have ht : t.length ≤ n := by
            simp only [List.length_cons] at hu
            omega
          obtain ⟨hx0, hsub0⟩ := ih t ht h0 hrec
          subst hx0
          refine ⟨h1.1.symm ▸ rfl, ?_⟩
          simp [listSub, hpre, hsub0]

/-- A two-piece split means the second piece is exactly the text after the
first occurrence of the separator, which does occur. -/
theorem chSplitOnAux_pair (sep : List Char) (hsep : sep ≠ []) :
    ∀ (fuel : Nat) (s : List Char), s.length ≤ fuel →
      ∀ a b, chSplitOnAux fuel sep s = [a, b] →
        afterFirst sep s = some b ∧ listSub sep s = true := by
  intro fuel
  induction fuel with
  | zero =>
    intro s hs a b h
    have : s = [] := List.length_eq_zero.mp (Nat.le_zero.mp hs)
    subst this
    simp [chSplitOnAux] at h
  | succ n ih =>
    intro s hs a b h
    cases s with
    | nil => simp [chSplitOnAux] at h
    | cons c t =>
      by_cases hp : sep ≠ [] ∧ sep.isPrefixOf (c :: t)
      · simp only [chSplitOnAux, if_pos hp] at h
        have h1 := List.cons.inj h
        have hrec : chSplitOnAux n sep ((c :: t).drop sep.length) = [b] := h1.2
        have hlensep : 1 ≤ sep.length := by
          cases sep with
          | nil => exact absurd rfl hsep
          | cons x xs => simp
        have hdlen : ((c :: t).drop sep.length).length ≤ n := by
          simp only [List.length_drop, List.length_cons] at *
          omega
        obtain ⟨hb, _⟩ := chSplitOnAux_single sep hsep n ((c :: t).drop sep.length) hdlen b hrec
        subst hb
        constructor
        · simp only [afterFirst, if_pos hp]
        · simp [listSub, hp.2]
      · simp only [chSplitOnAux, if_neg hp] at h
        have hpre : sep.isPrefixOf (c :: t) = false := by
          cases hb : sep.isPrefixOf (c :: t) with
          | false => rfl
          | true => exact absurd ⟨hsep, hb⟩ hp
        cases hrec : chSplitOnAux n sep t with
        | nil => exact absurd hrec (chSplitOnAux_ne_nil n sep t)
        | cons h0 r =>
          rw [hrec] at h
          simp only [] at h
          have h1 := List.cons.inj h
          have hr : r = [b] := h1.2
          subst hr
          have ht : t.length ≤ n := by
            simp only [List.length_cons] at hs
            omega
          obtain ⟨ha, hsub⟩ := ih t ht h0 b hrec
          constructor
          · rw [afterFirst, if_neg hp]
            exact ha
          · simp [listSub, hsub]

/-- When the separator occurs, the split has at least two pieces. -/
theorem chSplitOnAux_two_le (sep : List Char) (hsep : sep ≠ []) :
    ∀ (fuel : Nat) (s : List Char), s.length ≤ fuel →
      listSub sep s = true → 2 ≤ (chSplitOnAux fuel sep s).length := by
  have hie : sep.isEmpty = false := by simpa [List.isEmpty_iff] using hsep
  intro fuel
  induction fuel with
  | zero =>
    intro s hs hsub
    have : s = [] := List.length_eq_zero.mp (Nat.le_zero.mp hs)
    subst this
    simp [listSub, hie] at hsub
  | succ n ih =>
    intro s hs hsub
    cases s with
    | nil => simp [listSub, hie] at hsub
    | cons c t =>
      by_cases hp : sep ≠ [] ∧ sep.isPrefixOf (c :: t)
      · simp only [chSplitOnAux, if_pos hp]
        have hne := chSplitOnAux_ne_nil n sep ((c :: t).drop sep.length)
        have : 1 ≤ (chSplitOnAux n sep ((c :: t).drop sep.length)).length := by
          cases h : chSplitOnAux n sep ((c :: t).drop sep.length) with
          | nil => exact absurd h hne
          | cons x xs => simp
        simp only [List.length_cons]
        omega
      · have hpre : sep.isPrefixOf (c :: t) = false := by
          cases hb : sep.isPrefixOf (c :: t) with
          | false => rfl
          | true => exact absurd ⟨hsep, hb⟩ hp
        have hsubt : listSub sep t = true := by
          simp only [listSub, hpre, Bool.false_or] at hsub
          exact hsub
        have ht : t.length ≤ n := by
          simp only [List.length_cons] at hs
          omega
        have hge := ih t ht hsubt
        simp only [chSplitOnAux, if_neg hp]
        cases hrec : chSplitOnAux n sep t with
        | nil => exact absurd hrec (chSplitOnAux_ne_nil n sep t)
        | cons h0 r =>
          rw [hrec] at hge
          simp only [List.length_cons] at hge ⊢
          omega

/-- Substring occurrence is monotone under pattern truncation: if an
extension of a pattern occurs, the pattern occurs. -/
theorem listSub_of_append (p q : List Char) :
    ∀ s, listSub (p ++ q) s = true → listSub p s = true := by
  intro s
  induction s with
  | nil =>
    intro h
    simp only [listSub] at h ⊢
    rcases List.append_eq_nil.mp (List.isEmpty_iff.mp h) with ⟨hp, _⟩
    simp [hp]
  | cons c t ih =>
    intro h
    simp only [listSub, Bool.or_eq_true] at h ⊢
    rcases h with hpre | hsub
    · left
      have h1 : p ++ q <+: c :: t := List.isPrefixOf_iff_prefix.mp hpre
      have h2 : p <+: p ++ q := List.prefix_append p q
      exact List.isPrefixOf_iff_prefix.mpr (h2.trans h1)
    · right
      exact ih hsub

/-- The label-splitting expression of clean_pd.py equals the spec-side
between-labels text when the label occurs and splits the text in two. -/
theorem label_match_eq (lab nxt text : String) (hsep : lab.data ≠ [])
    (hlen : (pySplitOn text lab).length ≤ 2)
    (hsub : listSub lab.data text.data = true) :
    (match pySplitOn text lab with
     | _ :: seg :: _ => Except.ok (norm ((pySplitOn seg nxt).headD ""))
     | _ => (Except.error () : Except Unit String))
      = Except.ok (norm (specBetween text lab nxt)) := by
  have hmaplen : (pySplitOn text lab).length
      = (chSplitOnAux text.data.length lab.data text.data).length := by
    unfold pySplitOn
    rw [List.length_map]
  have hge := chSplitOnAux_two_le lab.data hsep text.data.length text.data le_rfl hsub
  have hlen2 : (chSplitOnAux text.data.length lab.data text.data).length = 2 := by
    omega
  obtain ⟨a0, b0, hab⟩ := List.length_eq_two.mp hlen2
  have hpair := chSplitOnAux_pair lab.data hsep text.data.length text.data le_rfl a0 b0 hab
  have hsplit : pySplitOn text lab = [String.mk a0, String.mk b0] := by
    unfold pySplitOn
    rw [hab]
    rfl
  rw [hsplit]
  unfold specBetween
  rw [hpair.1]

/-- C9 counterexample: on a detail text in which the "Year of Joining:"
label occurs twice before "Supervisor", the code's
`text.split("Year of Joining:")[1].split("Supervisor")[0]` stops at the
second label occurrence and yields "2020", while the claimed text between
the label and the next "Supervisor" is "2020 Year of Joining: 2021";
the full parser stores "2020" in the record. -/
theorem C9_counterexample :
    pyContains pdDupLabelText "Year of Joining:" = true ∧
    pdYear pdDupLabelText = .ok "2020" ∧
    norm (specBetween pdDupLabelText "Year of Joining:" "Supervisor")
      = "2020 Year of Joining: 2021" ∧
    ("2020" : String) ≠ "2020 Year of Joining: 2021" ∧
    parse_postdoc_entry pdDupArticle =
      .ok (some (PdEntry.mk "Dr. P Q" "2020" "S" "" "" "")) :=
  ⟨by decide, by rfl, by rfl, by decide, by rfl⟩

/-- C9 amended: on a postdoc detail text in which the colon-bearing label
occurs exactly once (Python `split(label)[1]` otherwise stops at the
second label occurrence), the extracted year_of_joining is the
whitespace-normalized text between "Year of Joining:" and the following
"Supervisor" (or end-of-string), and the supervisor is the text between
"Supervisor Name:" and "Email" (or end-of-string); and the record fields
produced by `parse_postdoc_entry` are exactly these extractions of the
first detail paragraph. -/
theorem C9_postdoc_label_extraction :
    (∀ text : String, (pySplitOn text "Year of Joining:").length ≤ 2 →
        pyContains text "Year of Joining:" = true →
        pdYear text = .ok (norm (specBetween text "Year of Joining:" "Supervisor"))) ∧
    (∀ text : String, (pySplitOn text "Supervisor Name:").length ≤ 2 →
        pyContains text "Supervisor Name:" = true →
        pdSupervisor text = .ok (norm (specBetween text "Supervisor Name:" "Email"))) ∧
    (∀ (article p : HNode) (r : PdEntry), findTag "p" article = some p →
        parse_postdoc_entry article = .ok (some r) →
        pdYear (getTextSepStrip p) = .ok r.year_of_joining ∧
        pdSupervisor (getTextSepStrip p) = .ok r.supervisor) := by
  refine ⟨?_, ?_, ?_⟩
  · intro text hlen hsub
    have htrig : pyContains text "Year of Joining" = true := by
      have heq : "Year of Joining".data ++ [':'] = "Year of Joining:".data := by decide
      exact listSub_of_append "Year of Joining".data [':'] text.data (by rw [heq]; exact hsub)
    unfold pdYear
    rw [htrig, if_pos rfl]
    exact label_match_eq "Year of Joining:" "Supervisor" text (by decide) hlen hsub
  · intro text hlen hsub
    have htrig : pyContains text "Supervisor Name" = true := by
      have heq : "Supervisor Name".data ++ [':'] = "Supervisor Name:".data := by decide
      exact listSub_of_append "Supervisor Name".data [':'] text.data (by rw [heq]; exact hsub)
    unfold pdSupervisor
    rw [htrig, if_pos rfl]
    exact label_match_eq "Supervisor Name:" "Email" text (by decide) hlen hsub
  · intro article p r hp hr
    simp only [parse_postdoc_entry, hp] at hr
    cases hy : pdYear (getTextSepStrip p) with
    | error u => simp only [hy] at hr; cases hr
    | ok y =>
      simp only [hy] at hr
      cases hs : pdSupervisor (getTextSepStrip p) with
      | error u => simp only [hs] at hr; cases hr
      | ok s =>
        simp only [hs] at hr
        cases he : pdEmail (getTextSepStrip p) with
        | error u => simp only [he] at hr; cases hr
        | ok e =>
          simp only [he] at hr
          by_cases hn : pdName article = ""
          · rw [if_pos hn] at hr
            cases hr
          · rw [if_neg hn] at hr
            injection hr with h
            injection h with h
            subst h
            exact ⟨rfl, rfl⟩

/-- Witness for C9: a concrete detail text with both labels once. -/
theorem C9_postdoc_label_extraction_witness :
    pdYear pdText9 = .ok "2020" ∧ pdSupervisor pdText9 = .ok "Prof S" := by
  constructor
  · exact (C9_postdoc_label_extraction.1 pdText9 (by decide) (by decide)).trans (by rfl)
  · exact (C9_postdoc_label_extraction.2.1 pdText9 (by decide) (by decide)).trans (by rfl)
